import Mathlib

/-!
Verification of the Letter Boxed solver core (`letterboxed.py`).

This file gives a shallow embedding of the data model and the operations of
the solver and proves the frozen claims about them:

* `Edge`, `Puzzle` embed the `NamedTuple`s `Edge` and `Puzzle`; equality of
  edges is structural (tuple equality), and `letter in edge` is membership
  among the three slots, exactly as Python tuple containment behaves.
* `LetterNode` embeds the trie node class: a letter (a list of characters,
  singleton for ordinary nodes, empty for the root), a `terminal` flag, and
  an insertion-ordered association list of children, modelling the Python
  `dict` (insertion order preserved, update in place keeps the position).
* `addWord` embeds `LetterBoxedSolver.add`: descend/create child nodes for
  each letter in order, then set the final node's terminal flag.
* `searchF` embeds `LetterNode.search`.  The Python recursion is bounded by
  the (finite, acyclic) trie depth; here the recursion is driven by a fuel
  argument and `LetterNode.search` supplies `nodeDepth n` fuel, which is
  proved sufficient (`searchF_fuel_irrelevant`), so the function is total
  and computable by the kernel.
* `iterStep`/`loop`/`solverSearch` embed the frontier loop of
  `LetterBoxedSolver.search`.  One Python `while` iteration is one
  `iterStep`.  `none` from `iterStep` models the uncaught Python exception
  raised when `self.word_graph.get(last_letter)` returns `None` and
  `.search` is invoked on it (`AttributeError`), or when the last word is
  empty (`IndexError` on `""[-1]`).  The `results is None` tests of the
  Python code are dead (`LetterNode.search` always returns a list) and have
  no counterpart in the embedding; the loop otherwise ends through the
  `len(in_progress_lists) == 0` checks, modelled by the `.done` outcome.
  The fuel argument of `loop` only models that the Python loop need not
  terminate in general; `SResult.fuel` is "ran out of fuel".
* `pySort` embeds `list.sort` with key `(len(x), sum(len(word) for word in x))`:
  it is a stable insertion sort, which agrees extensionally with Python's
  stable sort for this total preorder.
-/

namespace LetterBoxed

abbrev Word := List Char

/-- `Edge` from `letterboxed.py`: a named tuple of three letters.  Equality
is structural tuple equality, exactly as in Python. -/
structure Edge where
  a : Char
  b : Char
  c : Char
deriving DecidableEq, Repr

/-- The three slots of an edge, in tuple order; `for letter in edge`
iterates them in this order, duplicates included. -/
def Edge.letters (e : Edge) : List Char := [e.a, e.b, e.c]

/-- `Puzzle` from `letterboxed.py`: four edges. -/
structure Puzzle where
  left : Edge
  right : Edge
  top : Edge
  bottom : Edge
deriving DecidableEq, Repr

/-- `for edge in puzzle` iterates the fields in declaration order. -/
def Puzzle.edges (p : Puzzle) : List Edge := [p.left, p.right, p.top, p.bottom]

/-- `LetterNode` from `letterboxed.py`: the represented letter (`""` for the
root, one character otherwise), the explicit `terminal` flag, and the
children dictionary as an insertion-ordered association list. -/
inductive LetterNode : Type where
  | mk (letter : List Char) (terminal : Bool) (nodes : List (Char × LetterNode)) : LetterNode

def LetterNode.letter : LetterNode → List Char
  | .mk l _ _ => l

def LetterNode.terminal : LetterNode → Bool
  | .mk _ t _ => t

def LetterNode.nodes : LetterNode → List (Char × LetterNode)
  | .mk _ _ ns => ns

/-- Dictionary lookup (`self.nodes[letter]` guarded by `letter in self.nodes`). -/
def lookupNode : List (Char × LetterNode) → Char → Option LetterNode
  | [], _ => none
  | (c, child) :: rest, x => if c = x then some child else lookupNode rest x

/-- Dictionary update at an existing key: Python dicts keep the position of
an updated key. -/
def updateNode : List (Char × LetterNode) → Char → LetterNode → List (Char × LetterNode)
  | [], _, _ => []
  | (c, old) :: rest, x, v =>
    if c = x then (c, v) :: rest else (c, old) :: updateNode rest x v

mutual

/-- The height of a trie node (the root of an empty trie has depth 1); it
bounds the recursion depth of `LetterNode.search`. -/
def nodeDepth : LetterNode → Nat
  | .mk _ _ ns => 1 + depthList ns

/-- The maximal height of the nodes of a children list. -/
def depthList : List (Char × LetterNode) → Nat
  | [] => 0
  | (_, child) :: rest => max (nodeDepth child) (depthList rest)

end

/-- `LetterNode.get` for a letter key: the child for that letter, or `None`.
(The `isinstance(letter, LetterNode)` branch of the Python method is never
exercised by the solver, which always passes strings.) -/
def LetterNode.get (n : LetterNode) (c : Char) : Option LetterNode :=
  lookupNode n.nodes c

/-- `LetterNode.word`: a node is a word boundary if it has no children or
its explicit terminal flag is set. -/
def LetterNode.word (n : LetterNode) : Bool :=
  n.nodes.isEmpty || n.terminal

/-- `LetterBoxedSolver.add`: walk the word's letters, reusing or creating
child nodes, and mark the final node terminal.  The Python in-place
mutation becomes functional rebuilding of the visited spine. -/
def addWord : LetterNode → List Char → LetterNode
  | .mk l _ ns, [] => .mk l true ns
  | .mk l t ns, ch :: rest =>
    match lookupNode ns ch with
    | some child => .mk l t (updateNode ns ch (addWord child rest))
    | none => .mk l t (ns ++ [(ch, addWord (.mk [ch] false []) rest)])

/-- The solver's initial trie: `LetterNode("")`. -/
def emptyNode : LetterNode := .mk [] false []

/-- A trie built by inserting the given words, in order, into the fresh
solver trie. -/
def buildTrie (ws : List Word) : LetterNode := ws.foldl addWord emptyNode

/-- `LetterBoxedSolver.are_all_letters_used`: every letter slot of every
edge must occur in at least one of the words.  The Python version maintains
a nested dict keyed by edges and letters; because marking only ever touches
keys `(edge, letter)` with `letter in edge`, and the final check asks that
all such slots are marked, it is equivalent to this direct formulation
(duplicate letters within an edge, or structurally equal edges, collapse to
the same dictionary entries and impose the same condition). -/
def areAllLettersUsed (p : Puzzle) (ws : List Word) : Bool :=
  p.edges.all fun e => e.letters.all fun ch => ws.any fun w => w.contains ch

/-- The candidate edges of the next letter: every edge structurally
different from `current_edge`, or all four when there is none. -/
def nextEdges (p : Puzzle) (cur : Option Edge) : List Edge :=
  match cur with
  | some e => p.edges.filter fun x => decide (x ≠ e)
  | none => p.edges

/-- `LetterNode.search` with explicit fuel.  Emits the node's own letter if
the node is a word boundary, then for each candidate edge and each of its
letters recurses into the child for that letter (when present) with that
edge as the new current edge, prepending the node's letter to every result.
The result order (own result first, then edge order, then letter order) is
the Python order. -/
def searchF (p : Puzzle) : Nat → LetterNode → Option Edge → List (Word × Option Edge)
  | 0, _, _ => []
  | k+1, n, cur =>
    (if n.word then [(n.letter, cur)] else []) ++
      (nextEdges p cur).flatMap fun edge =>
        edge.letters.flatMap fun ch =>
          (lookupNode n.nodes ch).elim [] fun child =>
            (searchF p k child (some edge)).map fun r => (n.letter ++ r.1, r.2)

/-- `LetterNode.search`: the fuel `nodeDepth n` strictly bounds the
recursion depth, so this equals the unbounded Python recursion
(`searchF_fuel_irrelevant`). -/
def LetterNode.search (n : LetterNode) (p : Puzzle) (cur : Option Edge) :
    List (Word × Option Edge) :=
  searchF p (nodeDepth n) n cur

/-- A frontier entry: the accepted words so far plus the edge of the last
placed letter (`None` for the initial empty entry). -/
abbrev Entry := List Word × Option Edge

/-- `"_".join(word_list)`: the canonical key used for solution dedup. -/
def smash : List Word → Word
  | [] => []
  | [w] => w
  | w :: rest => w ++ '_' :: smash rest

/-- The body of `for result in results` in `LetterBoxedSolver.search`,
acting on the accumulator `(complete_list, in_progress_lists,
puzzle_solutions)`: skip words already in the chain; record covering
candidates (deduplicated by their smashed key); push non-covering
candidates unless the `max_chain` bound cuts them off. -/
def procOne (p : Puzzle) (mc : Int) (cw : List Word)
    (acc : List Entry × List Entry × List Word) (r : Word × Option Edge) :
    List Entry × List Entry × List Word :=
  if cw.contains r.1 then acc
  else
    let wl := cw ++ [r.1]
    if areAllLettersUsed p wl then
      if acc.2.2.contains (smash wl) then acc
      else (acc.1 ++ [(wl, r.2)], acc.2.1, acc.2.2 ++ [smash wl])
    else
      if mc > -1 then
        if (wl.length : Int) < mc then (acc.1, acc.2.1 ++ [(wl, r.2)], acc.2.2)
        else acc
      else (acc.1, acc.2.1 ++ [(wl, r.2)], acc.2.2)

/-- `current_words[-1][-1]`: the last letter of the last word, absent when
the last word is empty (Python would raise `IndexError`). -/
def lastLetter (cw : List Word) : Option Char :=
  match cw.getLast? with
  | none => none
  | some w => w.getLast?

/-- Lines 125-129: the node the single-word search starts from — the root
for the empty chain, otherwise the root's child for the last letter of the
last word.  `none` means the Python code goes on to call `.search` on
`None` and crashes. -/
def startNode (root : LetterNode) (cw : List Word) : Option LetterNode :=
  if cw.isEmpty then some root
  else
    match lastLetter cw with
    | none => none
    | some ch => root.get ch

/-- The Python sort key comparison: ascending lexicographic on
`(len(x), sum(len(word) for word in x))`. -/
def chainKeyLe (x y : List Word) : Bool :=
  decide (x.length < y.length) ||
    (decide (x.length = y.length) &&
      decide ((x.map List.length).sum ≤ (y.map List.length).sum))

/-- Stable insertion of an element into a sorted list: the new element goes
before the first existing element it compares `le` to. -/
def insertLe (le : α → α → Bool) (x : α) : List α → List α
  | [] => [x]
  | y :: ys => if le x y then x :: y :: ys else y :: insertLe le x ys

/-- Stable insertion sort; extensionally equal to Python's stable
`list.sort` for any total preorder `le`. -/
def pySort (le : α → α → Bool) : List α → List α
  | [] => []
  | x :: xs => insertLe le x (pySort le xs)

/-- Lines 183-184: keep only the word lists and sort them by
`(number of words, total letters)`. -/
def finalize (comp : List Entry) : List (List Word) :=
  pySort chainKeyLe (comp.map Prod.fst)

/-- The loop state: the entry being expanded, the FIFO frontier
(`in_progress_lists`), the recorded solutions (`complete_list`) and the
dedup keys (`puzzle_solutions`). -/
structure SState where
  current : Entry
  frontier : List Entry
  complete : List Entry
  seen : List Word

/-- Outcome of one iteration of the `while True` loop. -/
inductive StepOut where
  | done (sols : List (List Word)) : StepOut
  | next (st : SState) : StepOut

/-- One iteration of the solver loop.  `none` models the uncaught Python
exception when no start node exists (see `startNode`). -/
def iterStep (root : LetterNode) (p : Puzzle) (mc : Int) (st : SState) :
    Option StepOut :=
  match startNode root st.current.1 with
  | none => none
  | some node =>
    let rs := node.search p st.current.2
    match rs.foldl (procOne p mc st.current.1) (st.complete, st.frontier, st.seen) with
    | (comp, [], _) => some (.done (finalize comp))
    | (comp, e :: fr, seen) => some (.next ⟨e, fr, comp, seen⟩)

/-- Result of a bounded run of the solver loop. -/
inductive SResult where
  | ok (sols : List (List Word)) : SResult
  | err : SResult
  | fuel : SResult
deriving DecidableEq, Repr

/-- The `while True` loop, one `iterStep` per iteration, with fuel. -/
def loop (root : LetterNode) (p : Puzzle) (mc : Int) : Nat → SState → SResult
  | 0, _ => .fuel
  | k+1, st =>
    match iterStep root p mc st with
    | none => .err
    | some (.done s) => .ok s
    | some (.next st') => loop root p mc k st'

/-- `LetterBoxedSolver.search`: run the loop from the single empty entry. -/
def solverSearch (root : LetterNode) (p : Puzzle) (mc : Int) (fuelN : Nat) :
    SResult :=
  loop root p mc fuelN ⟨([], none), [], [], []⟩

/-- Concrete test puzzle whose four (structurally distinct) edges all carry
the letters a, b, c. -/
def fixturePuzzle : Puzzle :=
  ⟨⟨'a','b','c'⟩, ⟨'b','c','a'⟩, ⟨'c','a','b'⟩, ⟨'a','c','b'⟩⟩

/-- Concrete test puzzle where "ab" is playable (a on the left edge, b on
the right edge) and no inserted word starts with b. -/
def fixturePuzzleB : Puzzle :=
  ⟨⟨'a','c','d'⟩, ⟨'b','e','f'⟩, ⟨'g','h','i'⟩, ⟨'j','k','l'⟩⟩

/-- Concrete test puzzle where "cd" is playable and no inserted word starts
with d. -/
def fixturePuzzleC : Puzzle :=
  ⟨⟨'c','a','e'⟩, ⟨'d','b','f'⟩, ⟨'g','h','i'⟩, ⟨'j','k','l'⟩⟩

/-- Concrete test puzzle with the twelve distinct letters a..l, one edge
per letter triple; the letter z appears on no edge. -/
def fixtureEdges : Puzzle :=
  ⟨⟨'a','b','c'⟩, ⟨'d','e','f'⟩, ⟨'g','h','i'⟩, ⟨'j','k','l'⟩⟩

/-! ### Specification predicates -/

/-- Well-formed trie: every child is stored under the key equal to its own
(single) letter.  Tries built by insertions are well-formed
(`WF_buildTrie`). -/
inductive WF : LetterNode → Prop where
  | mk (l : List Char) (t : Bool) (ns : List (Char × LetterNode)) :
      (∀ pr ∈ ns, (pr.2).letter = [pr.1]) → (∀ pr ∈ ns, WF pr.2) →
      WF (.mk l t ns)

/-- Word `w₂` starts with the last letter of word `w₁`. -/
def followsB (w₁ w₂ : Word) : Bool :=
  (w₁.getLast?).isSome && decide (w₂.head? = w₁.getLast?)

/-- The word `w` can be traced after current edge `cur`, letter by letter:
each letter is drawn from an edge of the puzzle different from the previous
letter's edge, and `e` is the edge of the final letter (`cur` when `w` is
empty).  This is the curried form of "there is an assignment of one puzzle
edge per letter" (see `okWord_hasAssign`). -/
def okWord (p : Puzzle) : Option Edge → Word → Option Edge → Prop
  | cur, [], e => e = cur
  | cur, ch :: rest, e =>
    ∃ ed, ed ∈ p.edges ∧ (∀ E, cur = some E → ed ≠ E) ∧
      (ch = ed.a ∨ ch = ed.b ∨ ch = ed.c) ∧ okWord p (some ed) rest e

/-- Explicit edge-assignment form: a list of edges, one per letter of `w`,
with each letter on its assigned edge, consecutive assigned edges distinct,
the first assigned edge different from the forbidden edge `cur` when one is
passed, and the ending edge `e` equal to the last assigned edge (or to
`cur` when `w` is empty). -/
def hasAssign (p : Puzzle) (cur : Option Edge) (w : Word) (e : Option Edge) : Prop :=
  ∃ es : List Edge,
    es.length = w.length ∧
    (∀ ed ∈ es, ed ∈ p.edges) ∧
    (∀ pr ∈ w.zip es, pr.1 = (pr.2).a ∨ pr.1 = (pr.2).b ∨ pr.1 = (pr.2).c) ∧
    List.Chain' (· ≠ ·) es ∧
    (∀ E, cur = some E → List.Chain' (· ≠ ·) (E :: es)) ∧
    e = (es.getLast?).or cur

/-- The edge-assignment predicate of claim C3, for a whole returned word:
one puzzle edge per letter, each letter on its assigned edge, consecutive
letters on distinct edges, and the first letter's edge equal to the
forbidden edge when one is passed. -/
def claimAssign (p : Puzzle) (cur : Option Edge) (w : Word) : Prop :=
  ∃ es : List Edge,
    es.length = w.length ∧
    (∀ ed ∈ es, ed ∈ p.edges) ∧
    (∀ pr ∈ w.zip es, pr.1 = (pr.2).a ∨ pr.1 = (pr.2).b ∨ pr.1 = (pr.2).c) ∧
    List.Chain' (· ≠ ·) es ∧
    (∀ E, cur = some E → es.head? = some E)

/-- Walk the trie from `n` along the letters of `w`. -/
def descend : LetterNode → Word → Option LetterNode
  | n, [] => some n
  | n, ch :: rest => (lookupNode n.nodes ch).bind fun child => descend child rest

/-- A word list is a chain in the glossary's sense: no word repeats, and
every word after the first starts with the last letter of the word
immediately before it. -/
def chainOK (cw : List Word) : Prop :=
  cw.Nodup ∧ cw.Chain' fun w₁ w₂ => followsB w₁ w₂ = true

/-! ### Association-list lemmas -/

theorem lookupNode_mem {ns : List (Char × LetterNode)} {x : Char} {v : LetterNode}
    (h : lookupNode ns x = some v) : (x, v) ∈ ns := by
  induction ns with
  | nil => simp [lookupNode] at h
  | cons pr rest ih =>
    obtain ⟨c, child⟩ := pr
    by_cases hc : c = x
    · subst hc
      simp [lookupNode] at h
      simp [h]
    · simp [lookupNode, hc] at h
      exact List.mem_cons_of_mem _ (ih h)

theorem depth_le_of_lookup {ns : List (Char × LetterNode)} {x : Char} {v : LetterNode}
    (h : lookupNode ns x = some v) : nodeDepth v ≤ depthList ns := by
  induction ns with
  | nil => simp [lookupNode] at h
  | cons pr rest ih =>
    obtain ⟨c, child⟩ := pr
    by_cases hc : c = x
    · subst hc
      simp [lookupNode] at h
      subst h
      simp [depthList]
    · simp [lookupNode, hc] at h
      have := ih h
      simp [depthList]
      omega

theorem lookup_update_self {ns : List (Char × LetterNode)} {c : Char}
    {u : LetterNode} (v : LetterNode) (h : lookupNode ns c = some u) :
    lookupNode (updateNode ns c v) c = some v := by
  induction ns with
  | nil => simp [lookupNode] at h
  | cons pr rest ih =>
    obtain ⟨a, child⟩ := pr
    by_cases hc : a = c
    · subst hc
      simp [updateNode, lookupNode]
    · simp [lookupNode, hc] at h
      simp [updateNode, lookupNode, hc, ih h]

theorem lookup_update_ne {ns : List (Char × LetterNode)} {c a : Char}
    (v : LetterNode) (hne : a ≠ c) :
    lookupNode (updateNode ns c v) a = lookupNode ns a := by
  induction ns with
  | nil => simp [updateNode]
  | cons pr rest ih =>
    obtain ⟨b, child⟩ := pr
    by_cases hb : b = c
    · subst hb
      have hba : ¬ b = a := fun h => hne h.symm
      simp [updateNode, lookupNode, hba]
    · simp [updateNode, hb, lookupNode]
      by_cases hba : b = a
      · simp [hba]
      · simp [hba, ih]

theorem update_idem {ns : List (Char × LetterNode)} {c : Char} {v : LetterNode}
    (h : lookupNode ns c = some v) : updateNode ns c v = ns := by
  induction ns with
  | nil => simp [updateNode]
  | cons pr rest ih =>
    obtain ⟨a, child⟩ := pr
    by_cases hc : a = c
    · subst hc
      simp [lookupNode] at h
      simp [updateNode, h]
    · simp [lookupNode, hc] at h
      simp [updateNode, hc, ih h]

theorem lookup_append_left {ns l : List (Char × LetterNode)} {c : Char}
    {v : LetterNode} (h : lookupNode ns c = some v) :
    lookupNode (ns ++ l) c = some v := by
  induction ns with
  | nil => simp [lookupNode] at h
  | cons pr rest ih =>
    obtain ⟨a, child⟩ := pr
    by_cases hc : a = c
    · subst hc
      simp [lookupNode] at h ⊢
      exact h
    · simp [lookupNode, hc] at h ⊢
      exact ih h

theorem lookup_append_right {ns : List (Char × LetterNode)} {c : Char}
    (v : LetterNode) (h : lookupNode ns c = none) :
    lookupNode (ns ++ [(c, v)]) c = some v := by
  induction ns with
  | nil => simp [lookupNode]
  | cons pr rest ih =>
    obtain ⟨a, child⟩ := pr
    by_cases hc : a = c
    · subst hc
      simp [lookupNode] at h
    · simp [lookupNode, hc] at h ⊢
      exact ih h

theorem mem_updateNode {ns : List (Char × LetterNode)} {c : Char}
    {v : LetterNode} {pr : Char × LetterNode} (h : pr ∈ updateNode ns c v) :
    pr ∈ ns ∨ pr = (c, v) := by
  induction ns with
  | nil => simp [updateNode] at h
  | cons q rest ih =>
    obtain ⟨a, child⟩ := q
    by_cases hc : a = c
    · subst hc
      simp [updateNode] at h
      rcases h with h | h
      · right
        simp [h]
      · left
        simp [h]
    · simp [updateNode, hc] at h
      rcases h with h | h
      · left
        simp [h]
      · rcases ih h with h' | h'
        · left
          simp [h']
        · right
          exact h'

/-! ### Insertion lemmas -/

theorem addWord_letter (t : LetterNode) (w : List Char) :
    (addWord t w).letter = t.letter := by
  obtain ⟨l, tt, ns⟩ := t
  cases w with
  | nil => simp [addWord, LetterNode.letter]
  | cons c rest =>
    simp only [addWord]
    cases lookupNode ns c <;> simp [LetterNode.letter]

theorem addWord_terminal_mono {t : LetterNode} (w : List Char)
    (h : t.terminal = true) : (addWord t w).terminal = true := by
  obtain ⟨l, tt, ns⟩ := t
  cases w with
  | nil => simp [addWord, LetterNode.terminal]
  | cons c rest =>
    simp only [addWord]
    simp only [LetterNode.terminal] at h
    cases lookupNode ns c <;> simp [LetterNode.terminal, h]

/-- `add` of the empty word only sets the root's terminal flag. -/
theorem addWord_nil (t : LetterNode) :
    addWord t [] = .mk t.letter true t.nodes := by
  obtain ⟨l, tt, ns⟩ := t
  simp [addWord, LetterNode.letter, LetterNode.nodes]

theorem WF_empty : WF emptyNode := by
  exact WF.mk _ _ _ (by simp) (by simp)

theorem WF_child {n : LetterNode} {c : Char} {v : LetterNode} (hwf : WF n)
    (h : lookupNode n.nodes c = some v) : v.letter = [c] ∧ WF v := by
  obtain ⟨l, t, ns⟩ := n
  cases hwf with
  | mk _ _ _ hl hn =>
    have h' : lookupNode ns c = some v := by simpa [LetterNode.nodes] using h
    have hm := lookupNode_mem h'
    exact ⟨hl _ hm, hn _ hm⟩

theorem WF_addWord {t : LetterNode} (w : List Char) (hwf : WF t) :
    WF (addWord t w) := by
  induction w generalizing t with
  | nil =>
    obtain ⟨l, tt, ns⟩ := t
    cases hwf with
    | mk _ _ _ hl hn => exact WF.mk _ _ _ hl hn
  | cons c rest ih =>
    obtain ⟨l, tt, ns⟩ := t
    cases hwf with
    | mk _ _ _ hl hn =>
      simp only [addWord]
      cases hns : lookupNode ns c with
      | some child =>
        have hm := lookupNode_mem hns
        refine WF.mk _ _ _ ?_ ?_ <;> intro pr hpr <;>
          rcases mem_updateNode hpr with h' | h'
        · exact hl _ h'
        · subst h'
          show (addWord child rest).letter = [c]
          rw [addWord_letter]
          exact hl _ hm
        · exact hn _ h'
        · subst h'
          exact ih (hn _ hm)
      | none =>
        refine WF.mk _ _ _ ?_ ?_ <;> intro pr hpr <;>
          rcases List.mem_append.mp hpr with h' | h'
        · exact hl _ h'
        · simp only [List.mem_singleton] at h'
          subst h'
          show (addWord (LetterNode.mk [c] false []) rest).letter = [c]
          rw [addWord_letter]
          rfl
        · exact hn _ h'
        · simp only [List.mem_singleton] at h'
          subst h'
          exact ih (WF.mk [c] false [] (by simp) (by simp))

theorem WF_buildTrie (ws : List Word) : WF (buildTrie ws) := by
  suffices h : ∀ t, WF t → WF (ws.foldl addWord t) by
    exact h _ WF_empty
  induction ws with
  | nil => intro t ht; simpa using ht
  | cons w rest ih =>
    intro t ht
    simpa using ih _ (WF_addWord w ht)

/-! ### Reaching inserted words (C8) -/

theorem descend_addWord_self (w : List Char) :
    ∀ t, ∃ n, descend (addWord t w) w = some n ∧ n.terminal = true := by
  induction w with
  | nil =>
    intro t
    obtain ⟨l, tt, ns⟩ := t
    refine ⟨LetterNode.mk l true ns, ?_, ?_⟩
    · simp [addWord, descend]
    · simp [LetterNode.terminal]
  | cons c rest ih =>
    intro t
    obtain ⟨l, tt, ns⟩ := t
    simp only [addWord]
    cases hns : lookupNode ns c with
    | some child =>
      obtain ⟨n, hd, hterm⟩ := ih child
      exact ⟨n, by simp [descend, LetterNode.nodes, lookup_update_self _ hns, hd], hterm⟩
    | none =>
      obtain ⟨n, hd, hterm⟩ := ih (.mk [c] false [])
      exact ⟨n, by simp [descend, LetterNode.nodes, lookup_append_right _ hns, hd], hterm⟩

theorem descend_addWord_pres {W : Word} {n : LetterNode} :
    ∀ (t : LetterNode) (w : List Char), descend t W = some n → n.terminal = true →
      ∃ n', descend (addWord t w) W = some n' ∧ n'.terminal = true := by
  induction W with
  | nil =>
    intro t w hd hterm
    simp only [descend, Option.some_inj] at hd
    subst hd
    exact ⟨addWord t w, by simp [descend], addWord_terminal_mono w hterm⟩
  | cons a W' ih =>
    intro t w hd hterm
    obtain ⟨l, tt, ns⟩ := t
    simp only [descend, LetterNode.nodes] at hd
    cases hns : lookupNode ns a with
    | none => simp [hns] at hd
    | some child =>
      rw [hns] at hd
      simp only [Option.some_bind] at hd
      cases w with
      | nil =>
        exact ⟨n, by simp [addWord, descend, LetterNode.nodes, hns, hd], hterm⟩
      | cons c rest =>
        by_cases hca : c = a
        · subst hca
          simp only [addWord, hns]
          obtain ⟨n', hd', hterm'⟩ := ih child rest hd hterm
          exact ⟨n', by simp [descend, LetterNode.nodes, lookup_update_self _ hns, hd'], hterm'⟩
        · simp only [addWord]
          cases hns' : lookupNode ns c with
          | some child' =>
            refine ⟨n, ?_, hterm⟩
            simp [descend, LetterNode.nodes, lookup_update_ne _ (fun h : a = c => hca h.symm), hns, hd]
          | none =>
            refine ⟨n, ?_, hterm⟩
            simp [descend, LetterNode.nodes, lookup_append_left hns, hd]

theorem descend_foldl_pres {W : Word} :
    ∀ (l : List Word) (t : LetterNode) (n : LetterNode),
      descend t W = some n → n.terminal = true →
      ∃ n', descend (l.foldl addWord t) W = some n' ∧ n'.terminal = true := by
  intro l
  induction l with
  | nil => exact fun t n hd hterm => ⟨n, hd, hterm⟩
  | cons w rest ih =>
    intro t n hd hterm
    simp only [List.foldl_cons]
    obtain ⟨n', hd', hterm'⟩ := descend_addWord_pres t w hd hterm
    exact ih _ _ hd' hterm'

theorem descend_buildTrie {ws : List Word} {W : Word} (hmem : W ∈ ws) :
    ∃ n, descend (buildTrie ws) W = some n ∧ n.terminal = true := by
  obtain ⟨l₁, l₂, rfl⟩ := List.append_of_mem hmem
  unfold buildTrie
  rw [List.foldl_append]
  simp only [List.foldl_cons]
  obtain ⟨n, hd, hterm⟩ := descend_addWord_self W (l₁.foldl addWord emptyNode)
  exact descend_foldl_pres l₂ _ n hd hterm

/-! ### Idempotence of insertion (C9) -/

theorem addWord_idem (w : List Char) :
    ∀ t, addWord (addWord t w) w = addWord t w := by
  induction w with
  | nil =>
    intro t
    obtain ⟨l, tt, ns⟩ := t
    simp [addWord]
  | cons c rest ih =>
    intro t
    obtain ⟨l, tt, ns⟩ := t
    simp only [addWord]
    cases hns : lookupNode ns c with
    | some child =>
      show addWord (LetterNode.mk l tt (updateNode ns c (addWord child rest))) (c :: rest)
          = LetterNode.mk l tt (updateNode ns c (addWord child rest))
      simp only [addWord, lookup_update_self (addWord child rest) hns]
      rw [ih child, update_idem (lookup_update_self (addWord child rest) hns)]
    | none =>
      show addWord
            (LetterNode.mk l tt (ns ++ [(c, addWord (LetterNode.mk [c] false []) rest)]))
            (c :: rest)
          = LetterNode.mk l tt (ns ++ [(c, addWord (LetterNode.mk [c] false []) rest)])
      simp only [addWord, lookup_append_right (addWord (LetterNode.mk [c] false []) rest) hns]
      rw [ih (LetterNode.mk [c] false []),
        update_idem (lookup_append_right (addWord (LetterNode.mk [c] false []) rest) hns)]

/-! ### Fuel adequacy and shape of the single-word search -/

theorem flatMap_congr {α β : Type} {l : List α} {f g : α → List β}
    (h : ∀ a ∈ l, f a = g a) : l.flatMap f = l.flatMap g := by
  induction l with
  | nil => rfl
  | cons x xs ih =>
    simp only [List.flatMap_cons]
    rw [h x (by simp), ih fun a ha => h a (List.mem_cons_of_mem _ ha)]

/-- Any fuel at least the node's height yields the same search results: the
fuel-driven `searchF` agrees with the unbounded Python recursion, and
`LetterNode.search` (fuel `nodeDepth n`) is its canonical value. -/
theorem searchF_fuel_irrelevant (p : Puzzle) :
    ∀ (k₁ k₂ : Nat) (n : LetterNode) (cur : Option Edge),
      nodeDepth n ≤ k₁ → nodeDepth n ≤ k₂ →
      searchF p k₁ n cur = searchF p k₂ n cur := by
  intro k₁
  induction k₁ with
  | zero =>
    intro k₂ n cur h1 h2
    obtain ⟨l, t, ns⟩ := n
    simp [nodeDepth] at h1
  | succ k₁ ih =>
    intro k₂ n cur h1 h2
    cases k₂ with
    | zero =>
      obtain ⟨l, t, ns⟩ := n
      simp [nodeDepth] at h2
    | succ k₂ =>
      obtain ⟨l, t, ns⟩ := n
      simp only [nodeDepth] at h1 h2
      simp only [searchF]
      congr 1
      refine flatMap_congr fun edge _ => flatMap_congr fun ch _ => ?_
      cases hlk : lookupNode (LetterNode.mk l t ns).nodes ch with
      | none => rfl
      | some child =>
        have hlk' : lookupNode ns ch = some child := by
          simpa [LetterNode.nodes] using hlk
        have hd := depth_le_of_lookup hlk'
        simp only [Option.elim_some]
        rw [ih k₂ child (some edge) (by omega) (by omega)]

theorem nextEdges_mem {p : Puzzle} {cur : Option Edge} {edge : Edge}
    (h : edge ∈ nextEdges p cur) :
    edge ∈ p.edges ∧ ∀ E, cur = some E → edge ≠ E := by
  cases cur with
  | none =>
    refine ⟨h, ?_⟩
    intro E hE
    cases hE
  | some E =>
    simp only [nextEdges, List.mem_filter, decide_eq_true_eq] at h
    exact ⟨h.1, fun E' hE' => by cases hE'; exact h.2⟩

/-- Shape of every result of the single-word search on a well-formed node:
the word is the node's own letter followed by a remainder that can be
traced edge-by-edge from the forbidden edge, ending on the reported edge. -/
theorem searchF_shape {p : Puzzle} :
    ∀ (k : Nat) (n : LetterNode) (cur : Option Edge) (w : Word) (e : Option Edge),
      WF n → (w, e) ∈ searchF p k n cur →
      ∃ rest, w = n.letter ++ rest ∧ okWord p cur rest e := by
  intro k
  induction k with
  | zero =>
    intro n cur w e _ hmem
    simp [searchF] at hmem
  | succ k ih =>
    intro n cur w e hwf hmem
    simp only [searchF, List.mem_append, List.mem_flatMap] at hmem
    rcases hmem with hown | ⟨edge, hedge, ch, _, hmem⟩
    · have : w = n.letter ∧ e = cur := by
        rcases h : n.word with _ | _ <;> rw [h] at hown <;> simp at hown
        · exact ⟨hown.1, hown.2⟩
      refine ⟨[], by simp [this.1], ?_⟩
      simp [okWord, this.2]
    · cases hlk : lookupNode n.nodes ch with
      | none => rw [hlk] at hmem; simp at hmem
      | some child =>
        rw [hlk] at hmem
        simp only [Option.elim_some, List.mem_map] at hmem
        obtain ⟨r, hr, hre⟩ := hmem
        simp only [Prod.mk.injEq] at hre
        obtain ⟨hletter, hwfc⟩ := WF_child hwf hlk
        obtain ⟨rest, hr1, hok⟩ := ih child (some edge) r.1 r.2 hwfc (by
          cases r
          exact hr)
        obtain ⟨hne, hcur⟩ := nextEdges_mem hedge
        refine ⟨ch :: rest, ?_, ?_⟩
        · rw [← hre.1, hr1, hletter]
          simp
        · refine ⟨edge, hne, hcur, ?_, ?_⟩
          · have hch : ch ∈ edge.letters := by assumption
            simpa [Edge.letters] using hch
          · rw [← hre.2]
            exact hok

/-- The curried trace predicate yields the explicit edge assignment of the
specification: one puzzle edge per letter. -/
theorem okWord_hasAssign {p : Puzzle} :
    ∀ (w : Word) (cur : Option Edge) (e : Option Edge),
      okWord p cur w e → hasAssign p cur w e := by
  intro w
  induction w with
  | nil =>
    intro cur e hok
    refine ⟨[], rfl, by simp, by simp, by simp, by simp, ?_⟩
    simpa [Option.or] using hok
  | cons ch rest ih =>
    intro cur e hok
    obtain ⟨ed, hmem, hneq, hon, hok'⟩ := hok
    obtain ⟨es, hlen, hmem', hon', hchain, hfirst, hlast⟩ := ih (some ed) e hok'
    refine ⟨ed :: es, by simp [hlen], ?_, ?_, ?_, ?_, ?_⟩
    · intro x hx
      rcases List.mem_cons.mp hx with h | h
      · subst h; exact hmem
      · exact hmem' _ h
    · intro pr hpr
      simp only [List.zip_cons_cons] at hpr
      rcases List.mem_cons.mp hpr with h | h
      · subst h; exact hon
      · exact hon' _ h
    · exact hfirst ed rfl
    · intro E hE
      refine List.chain'_cons.mpr ⟨?_, hfirst ed rfl⟩
      exact (hneq E hE).symm
    · cases es with
      | nil =>
        cases rest with
        | nil =>
          simp only [okWord] at hok'
          simp [hok', Option.or]
        | cons a b => simp at hlen
      | cons e₀ es' =>
        simp only [List.getLast?_cons_cons]
        rw [hlast]
        cases h : (e₀ :: es').getLast? with
        | none => simp [List.getLast?] at h
        | some x => simp [Option.or]

/-! ### The result-processing fold -/

/-- Case analysis of the body of `for result in results`: either the
accumulator is unchanged (word already in the chain, duplicate solution
key, or pruned by `max_chain`), or a covering candidate is appended to
`complete_list`, or a non-covering candidate is pushed onto the frontier. -/
theorem procOne_cases (p : Puzzle) (mc : Int) (cw : List Word)
    (acc : List Entry × List Entry × List Word) (r : Word × Option Edge) :
    procOne p mc cw acc r = acc ∨
    (r.1 ∉ cw ∧ areAllLettersUsed p (cw ++ [r.1]) = true ∧
      procOne p mc cw acc r =
        (acc.1 ++ [(cw ++ [r.1], r.2)], acc.2.1, acc.2.2 ++ [smash (cw ++ [r.1])])) ∨
    (r.1 ∉ cw ∧ areAllLettersUsed p (cw ++ [r.1]) = false ∧
      (mc > -1 → ((cw ++ [r.1]).length : Int) < mc) ∧
      procOne p mc cw acc r = (acc.1, acc.2.1 ++ [(cw ++ [r.1], r.2)], acc.2.2)) := by
  by_cases h1 : r.1 ∈ cw
  · exact Or.inl (by simp [procOne, h1])
  · by_cases h2 : areAllLettersUsed p (cw ++ [r.1]) = true
    · by_cases h3 : smash (cw ++ [r.1]) ∈ acc.2.2
      · exact Or.inl (by simp [procOne, h1, h2, h3])
      · exact Or.inr (Or.inl ⟨h1, h2, by simp [procOne, h1, h2, h3]⟩)
    · have h2' : areAllLettersUsed p (cw ++ [r.1]) = false := by
        revert h2
        cases areAllLettersUsed p (cw ++ [r.1]) <;> simp
      by_cases h4 : mc > -1
      · by_cases h5 : ((cw.length : Int) + 1) < mc
        · refine Or.inr (Or.inr ⟨h1, h2', fun _ => by simpa using h5, ?_⟩)
          simp [procOne, h1, h2', h4, h5]
        · exact Or.inl (by simp [procOne, h1, h2', h4, h5])
      · refine Or.inr (Or.inr ⟨h1, h2', fun h => absurd h h4, ?_⟩)
        simp [procOne, h1, h2', h4]

/-- Every entry of `complete_list` after the fold either was there before
or is a newly recorded covering candidate. -/
theorem fold_complete (p : Puzzle) (mc : Int) (cw : List Word) (A : Entry → Prop) :
    ∀ (rs : List (Word × Option Edge)) (comp fr : List Entry) (seen : List Word),
      (∀ e ∈ comp, A e) →
      (∀ r ∈ rs, r.1 ∉ cw → areAllLettersUsed p (cw ++ [r.1]) = true →
        A (cw ++ [r.1], r.2)) →
      ∀ e ∈ (rs.foldl (procOne p mc cw) (comp, fr, seen)).1, A e := by
  intro rs
  induction rs with
  | nil =>
    intro comp fr seen h0 _ e he
    exact h0 e he
  | cons r rest ih =>
    intro comp fr seen h0 hn
    simp only [List.foldl_cons]
    have hrest : ∀ r' ∈ rest, r'.1 ∉ cw → areAllLettersUsed p (cw ++ [r'.1]) = true →
        A (cw ++ [r'.1], r'.2) :=
      fun r' hr' => hn r' (List.mem_cons_of_mem _ hr')
    rcases procOne_cases p mc cw (comp, fr, seen) r with hc | ⟨hnin, hcov, hc⟩ | ⟨_, _, _, hc⟩
    · rw [hc]
      exact ih comp fr seen h0 hrest
    · rw [hc]
      refine ih _ _ _ ?_ hrest
      intro e he
      rcases List.mem_append.mp he with h | h
      · exact h0 e h
      · simp only [List.mem_singleton] at h
        subst h
        exact hn r (by simp) hnin hcov
    · rw [hc]
      exact ih _ _ _ h0 hrest

/-- Every frontier entry after the fold either was there before or is a
newly pushed non-covering candidate that passed the `max_chain` test. -/
theorem fold_frontier (p : Puzzle) (mc : Int) (cw : List Word) (B : Entry → Prop) :
    ∀ (rs : List (Word × Option Edge)) (comp fr : List Entry) (seen : List Word),
      (∀ e ∈ fr, B e) →
      (∀ r ∈ rs, r.1 ∉ cw → areAllLettersUsed p (cw ++ [r.1]) = false →
        (mc > -1 → ((cw ++ [r.1]).length : Int) < mc) → B (cw ++ [r.1], r.2)) →
      ∀ e ∈ (rs.foldl (procOne p mc cw) (comp, fr, seen)).2.1, B e := by
  intro rs
  induction rs with
  | nil =>
    intro comp fr seen h0 _ e he
    exact h0 e he
  | cons r rest ih =>
    intro comp fr seen h0 hn
    simp only [List.foldl_cons]
    have hrest : ∀ r' ∈ rest, r'.1 ∉ cw → areAllLettersUsed p (cw ++ [r'.1]) = false →
        (mc > -1 → ((cw ++ [r'.1]).length : Int) < mc) → B (cw ++ [r'.1], r'.2) :=
      fun r' hr' => hn r' (List.mem_cons_of_mem _ hr')
    rcases procOne_cases p mc cw (comp, fr, seen) r with hc | ⟨_, _, hc⟩ | ⟨hnin, hcov, hlen, hc⟩
    · rw [hc]
      exact ih comp fr seen h0 hrest
    · rw [hc]
      exact ih _ _ _ h0 hrest
    · rw [hc]
      refine ih _ _ _ ?_ hrest
      intro e he
      rcases List.mem_append.mp he with h | h
      · exact h0 e h
      · simp only [List.mem_singleton] at h
        subst h
        exact hn r (by simp) hnin hcov hlen

theorem smash_singleton (w : Word) : smash [w] = w := rfl

/-- C6 (bound = 1) engine lemma: with `max_chain = 1` and the empty chain,
the fold never pushes to the frontier, and the recorded entries are exactly
the first occurrences of the covering single words of the result list. -/
theorem fold_k1 {p : Puzzle} :
    ∀ (rs : List (Word × Option Edge)) (comp fr : List Entry) (seen : List Word),
      (∀ key, key ∈ seen ↔ ∃ ed', ([key], ed') ∈ comp) →
      ((rs.foldl (procOne p 1 []) (comp, fr, seen)).2.1 = fr) ∧
      (∀ e ∈ (rs.foldl (procOne p 1 []) (comp, fr, seen)).1,
        e ∈ comp ∨ ∃ w ed, e = ([w], ed) ∧ (w, ed) ∈ rs ∧
          areAllLettersUsed p [w] = true) ∧
      (∀ e ∈ comp, e ∈ (rs.foldl (procOne p 1 []) (comp, fr, seen)).1) ∧
      (∀ w ed, (w, ed) ∈ rs → areAllLettersUsed p [w] = true →
        ∃ ed', ([w], ed') ∈ (rs.foldl (procOne p 1 []) (comp, fr, seen)).1) := by
  intro rs
  induction rs with
  | nil =>
    intro comp fr seen _
    refine ⟨rfl, fun e he => Or.inl he, fun e he => he, ?_⟩
    intro w ed h
    simp at h
  | cons r rest ih =>
    intro comp fr seen hinv
    obtain ⟨w, ed⟩ := r
    simp only [List.foldl_cons]
    by_cases hcov : areAllLettersUsed p [w] = true
    · by_cases hseen : w ∈ seen
      · have hstep : procOne p 1 [] (comp, fr, seen) (w, ed) = (comp, fr, seen) := by
          simp [procOne, hcov, hseen, smash_singleton]
        rw [hstep]
        obtain ⟨h1, h2, h3, h4⟩ := ih comp fr seen hinv
        refine ⟨h1, ?_, h3, ?_⟩
        · intro e he
          rcases h2 e he with h | ⟨w', ed', he', hm, hc⟩
          · exact Or.inl h
          · exact Or.inr ⟨w', ed', he', List.mem_cons_of_mem _ hm, hc⟩
        · intro w' ed' hm hc
          rcases List.mem_cons.mp hm with h | h
          · simp only [Prod.mk.injEq] at h
            obtain ⟨rfl, rfl⟩ := h
            obtain ⟨ed'', hed''⟩ := (hinv w').mp hseen
            exact ⟨ed'', h3 _ hed''⟩
          · exact h4 w' ed' h hc
      · have hstep : procOne p 1 [] (comp, fr, seen) (w, ed)
            = (comp ++ [([w], ed)], fr, seen ++ [w]) := by
          simp [procOne, hcov, hseen, smash_singleton]
        rw [hstep]
        have hinv' : ∀ key, key ∈ seen ++ [w] ↔ ∃ ed', ([key], ed') ∈ comp ++ [([w], ed)] := by
          intro key
          simp only [List.mem_append, List.mem_singleton]
          constructor
          · rintro (h | h)
            · obtain ⟨ed', hed'⟩ := (hinv key).mp h
              exact ⟨ed', Or.inl hed'⟩
            · subst h
              exact ⟨ed, Or.inr rfl⟩
          · rintro ⟨ed', h | h⟩
            · exact Or.inl ((hinv key).mpr ⟨ed', h⟩)
            · simp only [Prod.mk.injEq, List.cons.injEq, and_true] at h
              exact Or.inr h.1
        obtain ⟨h1, h2, h3, h4⟩ := ih (comp ++ [([w], ed)]) fr (seen ++ [w]) hinv'
        refine ⟨h1, ?_, ?_, ?_⟩
        · intro e he
          rcases h2 e he with h | ⟨w', ed', he', hm, hc⟩
          · rcases List.mem_append.mp h with h | h
            · exact Or.inl h
            · simp only [List.mem_singleton] at h
              exact Or.inr ⟨w, ed, h, by simp, hcov⟩
          · exact Or.inr ⟨w', ed', he', List.mem_cons_of_mem _ hm, hc⟩
        · exact fun e he => h3 e (List.mem_append_left _ he)
        · intro w' ed' hm hc
          rcases List.mem_cons.mp hm with h | h
          · simp only [Prod.mk.injEq] at h
            obtain ⟨rfl, rfl⟩ := h
            exact ⟨ed', h3 _ (List.mem_append_right _ (by simp))⟩
          · exact h4 w' ed' h hc
    · have hcov' : areAllLettersUsed p [w] = false := by
        revert hcov
        cases areAllLettersUsed p [w] <;> simp
      have hstep : procOne p 1 [] (comp, fr, seen) (w, ed) = (comp, fr, seen) := by
        norm_num [procOne, hcov']
      rw [hstep]
      obtain ⟨h1, h2, h3, h4⟩ := ih comp fr seen hinv
      refine ⟨h1, ?_, h3, ?_⟩
      · intro e he
        rcases h2 e he with h | ⟨w', ed', he', hm, hc⟩
        · exact Or.inl h
        · exact Or.inr ⟨w', ed', he', List.mem_cons_of_mem _ hm, hc⟩
      · intro w' ed' hm hc
        rcases List.mem_cons.mp hm with h | h
        · simp only [Prod.mk.injEq] at h
          obtain ⟨rfl, rfl⟩ := h
          rw [hc] at hcov'
          cases hcov'
        · exact h4 w' ed' h hc

/-! ### The stable sort -/

theorem mem_insertLe {α : Type} {le : α → α → Bool} {x a : α} :
    ∀ {l : List α}, a ∈ insertLe le x l ↔ a = x ∨ a ∈ l := by
  intro l
  induction l with
  | nil => simp [insertLe]
  | cons y ys ih =>
    by_cases h : le x y = true
    · simp [insertLe, h]
    · simp only [insertLe, if_neg h, List.mem_cons, ih]
      tauto

theorem mem_pySort {α : Type} {le : α → α → Bool} {a : α} :
    ∀ {l : List α}, a ∈ pySort le l ↔ a ∈ l := by
  intro l
  induction l with
  | nil => simp [pySort]
  | cons x xs ih => simp [pySort, mem_insertLe, ih]

theorem pairwise_insertLe {α : Type} {le : α → α → Bool}
    (htrans : ∀ a b c, le a b = true → le b c = true → le a c = true)
    (htotal : ∀ a b, le a b = true ∨ le b a = true) (x : α) :
    ∀ l : List α, l.Pairwise (fun a b => le a b = true) →
      (insertLe le x l).Pairwise (fun a b => le a b = true) := by
  intro l
  induction l with
  | nil => simp [insertLe]
  | cons y ys ih =>
    intro hp
    rcases List.pairwise_cons.mp hp with ⟨hy, hys⟩
    by_cases h : le x y = true
    · simp only [insertLe, if_pos h]
      refine List.pairwise_cons.mpr ⟨?_, hp⟩
      intro b hb
      rcases List.mem_cons.mp hb with hb | hb
      · subst hb; exact h
      · exact htrans _ _ _ h (hy b hb)
    · simp only [insertLe, if_neg h]
      refine List.pairwise_cons.mpr ⟨?_, ih hys⟩
      intro b hb
      rcases mem_insertLe.mp hb with hb | hb
      · subst hb
        rcases htotal y b with ht | ht
        · exact ht
        · exact absurd ht h
      · exact hy b hb

theorem pairwise_pySort {α : Type} {le : α → α → Bool}
    (htrans : ∀ a b c, le a b = true → le b c = true → le a c = true)
    (htotal : ∀ a b, le a b = true ∨ le b a = true) :
    ∀ l : List α, (pySort le l).Pairwise (fun a b => le a b = true) := by
  intro l
  induction l with
  | nil => simp [pySort]
  | cons x xs ih => exact pairwise_insertLe htrans htotal x _ ih

theorem chainKeyLe_trans (a b c : List Word) (h1 : chainKeyLe a b = true)
    (h2 : chainKeyLe b c = true) : chainKeyLe a c = true := by
  simp only [chainKeyLe, Bool.or_eq_true, Bool.and_eq_true, decide_eq_true_eq] at h1 h2 ⊢
  omega

theorem chainKeyLe_total (a b : List Word) :
    chainKeyLe a b = true ∨ chainKeyLe b a = true := by
  simp only [chainKeyLe, Bool.or_eq_true, Bool.and_eq_true, decide_eq_true_eq]
  omega

/-! ### Loop invariants -/

/-- C1 engine lemma: every chain in `complete_list` is covering, so every
chain the loop returns is covering. -/
theorem loop_cover {root : LetterNode} {p : Puzzle} {mc : Int} :
    ∀ (k : Nat) (st : SState) (out : List (List Word)),
      (∀ e ∈ st.complete, areAllLettersUsed p e.1 = true) →
      loop root p mc k st = .ok out →
      ∀ c ∈ out, areAllLettersUsed p c = true := by
  intro k
  induction k with
  | zero =>
    intro st out h hl
    simp [loop] at hl
  | succ k ih =>
    intro st out h hl
    simp only [loop] at hl
    cases hsn : startNode root st.current.1 with
    | none => simp [iterStep, hsn] at hl
    | some node =>
      rcases hfold : (node.search p st.current.2).foldl
          (procOne p mc st.current.1) (st.complete, st.frontier, st.seen)
        with ⟨comp, fr, seen⟩
      have hcomp : ∀ e ∈ comp, areAllLettersUsed p e.1 = true := by
        have hh := fold_complete p mc st.current.1 (fun e => areAllLettersUsed p e.1 = true)
          (node.search p st.current.2) st.complete st.frontier st.seen h
          (fun r _ _ hcov => hcov)
        rw [hfold] at hh
        exact hh
      cases fr with
      | nil =>
        simp only [iterStep, hsn, hfold, SResult.ok.injEq] at hl
        subst hl
        intro c hc
        simp only [finalize] at hc
        obtain ⟨e, he, rfl⟩ := List.mem_map.mp (mem_pySort.mp hc)
        exact hcomp e he
      | cons e fr' =>
        simp only [iterStep, hsn, hfold] at hl
        exact ih _ out hcomp hl

theorem chainOK_extend {cw : List Word} {w : Word} (hok : chainOK cw) (hnot : w ∉ cw)
    (hlink : ∀ lw, cw.getLast? = some lw → followsB lw w = true) :
    chainOK (cw ++ [w]) := by
  constructor
  · simp [List.nodup_append, hok.1, hnot]
  · rw [List.chain'_append]
    refine ⟨hok.2, List.chain'_singleton _, ?_⟩
    intro x hx y hy
    simp only [List.head?_cons, Option.mem_def, Option.some_inj] at hy
    subst hy
    exact hlink x hx

/-- Every word found from the start node of a nonempty chain starts with
the last letter of the chain's last word. -/
theorem startNode_link {root : LetterNode} {p : Puzzle} (hwf : WF root)
    {cw : List Word} {node : LetterNode} {ce : Option Edge}
    (hsn : startNode root cw = some node) {r : Word × Option Edge}
    (hr : r ∈ node.search p ce) :
    ∀ lw, cw.getLast? = some lw → followsB lw r.1 = true := by
  intro lw hlw
  have hcwne : cw ≠ [] := by
    intro h
    subst h
    simp at hlw
  have hne : ¬ (cw.isEmpty = true) := by
    simpa [List.isEmpty_iff] using hcwne
  rw [startNode, if_neg hne] at hsn
  cases hll : lastLetter cw with
  | none => rw [hll] at hsn; cases hsn
  | some ch =>
    rw [hll] at hsn
    obtain ⟨hletter, hwfc⟩ := WF_child hwf (by simpa [LetterNode.get] using hsn)
    obtain ⟨rest, hshape, _⟩ :=
      searchF_shape (nodeDepth node) node ce r.1 r.2 hwfc (by cases r; exact hr)
    have hch : lw.getLast? = some ch := by
      simp only [lastLetter, hlw] at hll
      exact hll
    rw [hletter] at hshape
    simp [followsB, hch, hshape]

/-- C2 engine lemma: every chain handled by the loop is a chain in the
glossary's sense, hence so is every returned chain. -/
theorem loop_chain {root : LetterNode} {p : Puzzle} {mc : Int} (hwf : WF root) :
    ∀ (k : Nat) (st : SState) (out : List (List Word)),
      chainOK st.current.1 →
      (∀ e ∈ st.frontier, chainOK e.1) →
      (∀ e ∈ st.complete, chainOK e.1) →
      loop root p mc k st = .ok out →
      ∀ c ∈ out, chainOK c := by
  intro k
  induction k with
  | zero =>
    intro st out _ _ _ hl
    simp [loop] at hl
  | succ k ih =>
    intro st out hcur hfr hcm hl
    simp only [loop] at hl
    cases hsn : startNode root st.current.1 with
    | none => simp [iterStep, hsn] at hl
    | some node =>
      have hnew : ∀ r ∈ node.search p st.current.2, r.1 ∉ st.current.1 →
          chainOK (st.current.1 ++ [r.1]) := by
        intro r hr hnin
        exact chainOK_extend hcur hnin (startNode_link hwf hsn hr)
      rcases hfold : (node.search p st.current.2).foldl
          (procOne p mc st.current.1) (st.complete, st.frontier, st.seen)
        with ⟨comp, fr, seen⟩
      have hcomp : ∀ e ∈ comp, chainOK e.1 := by
        have hh := fold_complete p mc st.current.1 (fun e => chainOK e.1)
          (node.search p st.current.2) st.complete st.frontier st.seen hcm
          (fun r hr hnin _ => hnew r hr hnin)
        rw [hfold] at hh
        exact hh
      have hfront : ∀ e ∈ fr, chainOK e.1 := by
        have hh := fold_frontier p mc st.current.1 (fun e => chainOK e.1)
          (node.search p st.current.2) st.complete st.frontier st.seen hfr
          (fun r hr hnin _ _ => hnew r hr hnin)
        rw [hfold] at hh
        exact hh
      cases fr with
      | nil =>
        simp only [iterStep, hsn, hfold, SResult.ok.injEq] at hl
        subst hl
        intro c hc
        simp only [finalize] at hc
        obtain ⟨e, he, rfl⟩ := List.mem_map.mp (mem_pySort.mp hc)
        exact hcomp e he
      | cons e fr' =>
        simp only [iterStep, hsn, hfold] at hl
        refine ih _ out ?_ ?_ hcomp hl
        · exact hfront e (by simp)
        · exact fun e' he' => hfront e' (List.mem_cons_of_mem _ he')

/-- C6 engine lemma: with a configured bound, chains in the frontier stay
strictly below the bound and recorded solutions stay at or below it. -/
theorem loop_maxchain {root : LetterNode} {p : Puzzle} {mc : Int} :
    ∀ (k : Nat) (st : SState) (out : List (List Word)),
      ((st.current.1.length : Int) < mc) →
      (∀ e ∈ st.frontier, ((e.1.length : Int) < mc)) →
      (∀ e ∈ st.complete, ((e.1.length : Int) ≤ mc)) →
      loop root p mc k st = .ok out →
      ∀ c ∈ out, (c.length : Int) ≤ mc := by
  intro k
  induction k with
  | zero =>
    intro st out _ _ _ hl
    simp [loop] at hl
  | succ k ih =>
    intro st out hcur hfr hcm hl
    simp only [loop] at hl
    cases hsn : startNode root st.current.1 with
    | none => simp [iterStep, hsn] at hl
    | some node =>
      rcases hfold : (node.search p st.current.2).foldl
          (procOne p mc st.current.1) (st.complete, st.frontier, st.seen)
        with ⟨comp, fr, seen⟩
      have hcomp : ∀ e ∈ comp, ((e.1.length : Int) ≤ mc) := by
        have hh := fold_complete p mc st.current.1 (fun e => (e.1.length : Int) ≤ mc)
          (node.search p st.current.2) st.complete st.frontier st.seen hcm
          (fun r _ _ _ => by
            simp only [List.length_append, List.length_singleton]
            push_cast
            omega)
        rw [hfold] at hh
        exact hh
      have hfront : ∀ e ∈ fr, ((e.1.length : Int) < mc) := by
        have hh := fold_frontier p mc st.current.1 (fun e => (e.1.length : Int) < mc)
          (node.search p st.current.2) st.complete st.frontier st.seen hfr
          (fun r _ _ _ hb => by
            refine hb ?_
            have : (0 : Int) ≤ (st.current.1.length : Int) := by positivity
            omega)
        rw [hfold] at hh
        exact hh
      cases fr with
      | nil =>
        simp only [iterStep, hsn, hfold, SResult.ok.injEq] at hl
        subst hl
        intro c hc
        simp only [finalize] at hc
        obtain ⟨e, he, rfl⟩ := List.mem_map.mp (mem_pySort.mp hc)
        exact hcomp e he
      | cons e fr' =>
        simp only [iterStep, hsn, hfold] at hl
        refine ih _ out ?_ ?_ hcomp hl
        · exact hfront e (by simp)
        · exact fun e' he' => hfront e' (List.mem_cons_of_mem _ he')

/-- C7 engine lemma: whatever the loop returns was sorted by `finalize`. -/
theorem loop_sorted {root : LetterNode} {p : Puzzle} {mc : Int} :
    ∀ (k : Nat) (st : SState) (out : List (List Word)),
      loop root p mc k st = .ok out →
      out.Pairwise fun a b => chainKeyLe a b = true := by
  intro k
  induction k with
  | zero =>
    intro st out hl
    simp [loop] at hl
  | succ k ih =>
    intro st out hl
    simp only [loop] at hl
    cases hsn : startNode root st.current.1 with
    | none => simp [iterStep, hsn] at hl
    | some node =>
      rcases hfold : (node.search p st.current.2).foldl
          (procOne p mc st.current.1) (st.complete, st.frontier, st.seen)
        with ⟨comp, fr, seen⟩
      cases fr with
      | nil =>
        simp only [iterStep, hsn, hfold, SResult.ok.injEq] at hl
        subst hl
        exact pairwise_pySort chainKeyLe_trans chainKeyLe_total _
      | cons e fr' =>
        simp only [iterStep, hsn, hfold] at hl
        exact ih _ out hl

/-! ### Concrete scenarios from the specification -/

/-- Scenario: dictionary {"abc"} with edges (a,b,c)(d,e,f)(g,h,i)(j,k,l):
all three letters of "abc" sit on one edge, so the single-word search has
no completions and the solver finds zero solutions. -/
theorem scenario_same_edge_word :
    (buildTrie [['a','b','c']]).search fixtureEdges none = [] ∧
    solverSearch (buildTrie [['a','b','c']]) fixtureEdges (-1) 1 = .ok [] := by
  constructor <;> decide

/-- Scenario: dictionary {"adg", "gja"} on the same puzzle: both words are
playable and chain, but no chain covers all twelve letters, so the solver
terminates with zero solutions. -/
theorem scenario_partial_coverage :
    solverSearch (buildTrie [['a','d','g'], ['g','j','a']]) fixtureEdges (-1) 6
      = .ok [] := by decide

/-! ### Claims -/

/-- C1: for every trie built by insertions and every puzzle, every
word-chain returned by the chain search engine satisfies full coverage —
`are_all_letters_used` holds for every returned chain. -/
theorem c1_solutions_cover (ws : List Word) (p : Puzzle) (mc : Int) (gas : Nat)
    (out : List (List Word)) (h : solverSearch (buildTrie ws) p mc gas = .ok out) :
    ∀ c ∈ out, areAllLettersUsed p c = true :=
  loop_cover gas ⟨([], none), [], [], []⟩ out (by simp) h

set_option maxRecDepth 20000 in
/-- Witness for C1 at a concrete dictionary and puzzle. -/
theorem c1_solutions_cover_witness :
    solverSearch (buildTrie [['a','b','c']]) fixturePuzzle (-1) 1
        = .ok [[['a','b','c']]] ∧
    ∀ c ∈ [[['a','b','c']]], areAllLettersUsed fixturePuzzle c = true :=
  ⟨by decide, c1_solutions_cover [['a','b','c']] fixturePuzzle (-1) 1 _ (by decide)⟩

/-- C2: every list of words returned by the chain search engine on a trie
built by insertions is a chain: pairwise distinct words, and every word
after the first starts with the last letter of the word before it. -/
theorem c2_chains_linked_nodup (ws : List Word) (p : Puzzle) (mc : Int) (gas : Nat)
    (out : List (List Word)) (h : solverSearch (buildTrie ws) p mc gas = .ok out) :
    ∀ c ∈ out, c.Nodup ∧ c.Chain' fun w₁ w₂ => followsB w₁ w₂ = true :=
  loop_chain (WF_buildTrie ws) gas ⟨([], none), [], [], []⟩ out
    (by constructor <;> simp) (by simp) (by simp) h

set_option maxRecDepth 20000 in
/-- Witness for C2 at a concrete dictionary and puzzle. -/
theorem c2_chains_linked_nodup_witness :
    solverSearch (buildTrie [['a','b','c']]) fixturePuzzle (-1) 2
        = .ok [[['a','b','c']]] ∧
    ∀ c ∈ [[['a','b','c']]],
      c.Nodup ∧ c.Chain' fun w₁ w₂ => followsB w₁ w₂ = true :=
  ⟨by decide,
    c2_chains_linked_nodup [['a','b','c']] fixturePuzzle (-1) 2 _ (by decide)⟩

/-- C3 (amended): on a well-formed trie node, every returned
`(word, ending-edge)` pair consists of the node's own letter followed by a
remainder admitting an assignment of one puzzle edge per letter — each
remainder letter on its assigned edge, consecutive assigned edges distinct,
the first assigned edge distinct from the forbidden edge when one is
passed, and the ending edge equal to the last assigned edge (the forbidden
edge when the remainder is empty).  The node's own leading letter is
prepended without any membership check, which is what refutes the original
claim. -/
theorem c3_word_edge_assignment (n : LetterNode) (p : Puzzle) (cur : Option Edge)
    (w : Word) (e : Option Edge) (hwf : WF n) (h : (w, e) ∈ n.search p cur) :
    ∃ rest, w = n.letter ++ rest ∧ hasAssign p cur rest e := by
  obtain ⟨rest, h1, h2⟩ := searchF_shape (nodeDepth n) n cur w e hwf h
  exact ⟨rest, h1, okWord_hasAssign rest cur e h2⟩

/-- Witness for C3 (amended) at a concrete node and puzzle. -/
theorem c3_word_edge_assignment_witness :
    WF (LetterNode.mk ['a'] true []) ∧
    ∃ rest, ['a'] = (LetterNode.mk ['a'] true []).letter ++ rest ∧
      hasAssign fixturePuzzle none rest none :=
  ⟨WF.mk _ _ _ (by simp) (by simp),
    c3_word_edge_assignment (LetterNode.mk ['a'] true []) fixturePuzzle none
      ['a'] none (WF.mk _ _ _ (by simp) (by simp)) (by decide)⟩

/-- Counterexample to C3 as stated: the node for the inserted word "z" is
a word boundary, so the search called on it with forbidden edge (a,b,c)
returns the word "z" — but no assignment of puzzle edges to the letters of
"z" exists, because z lies on no edge of the puzzle; in particular the
first letter cannot be placed on the forbidden edge. -/
theorem c3_counterexample :
    (buildTrie [['z']]).get 'z' = some (LetterNode.mk ['z'] true []) ∧
    (['z'], some (Edge.mk 'a' 'b' 'c')) ∈
      (LetterNode.mk ['z'] true []).search fixtureEdges (some (Edge.mk 'a' 'b' 'c')) ∧
    ¬ claimAssign fixtureEdges (some (Edge.mk 'a' 'b' 'c')) ['z'] := by
  refine ⟨rfl, by decide, ?_⟩
  rintro ⟨es, hlen, hmem, hon, -, -⟩
  cases es with
  | nil => simp at hlen
  | cons e₀ es' =>
    have hes' : es' = [] := by
      cases es' with
      | nil => rfl
      | cons x xs => simp [List.length_cons] at hlen
    subst hes'
    have hm : e₀ ∈ fixtureEdges.edges := hmem e₀ (by simp)
    have hz : 'z' = e₀.a ∨ 'z' = e₀.b ∨ 'z' = e₀.c := by
      have := hon ('z', e₀) (by simp)
      simpa using this
    simp only [fixtureEdges, Puzzle.edges, List.mem_cons, List.mem_singleton] at hm
    rcases hm with rfl | rfl | rfl | hm
    · revert hz; decide
    · revert hz; decide
    · revert hz; decide
    · simp only [List.not_mem_nil, or_false] at hm
      subst hm
      revert hz; decide

/-- C4: the claim is right and the code is wrong.  When the chain search
pops an entry whose last word's final letter starts no inserted word,
`self.word_graph.get(last_letter)` is `None` and `node.search(...)` raises
`AttributeError` instead of continuing: with dictionary {"ab"} and a puzzle
where "ab" is playable but no word starts with b, the run aborts. -/
theorem c4_missing_child_is_error :
    solverSearch (buildTrie [['a','b']]) fixturePuzzleB (-1) 2 = .err := by decide

/-- C5 (amended): inserting the zero-length word is not rejected: it sets
the root's explicit terminal flag (leaving letter and children unchanged),
so the root becomes a word boundary — the word-boundary semantics at the
root do change. -/
theorem c5_empty_insertion_marks_root (t : LetterNode) :
    addWord t [] = LetterNode.mk t.letter true t.nodes ∧
    (addWord t []).word = true := by
  refine ⟨addWord_nil t, ?_⟩
  rw [addWord_nil t]
  simp [LetterNode.word, LetterNode.terminal]

/-- Counterexample to C5 as stated: on the trie holding just "a", the root
is not terminal; after `add("")` the root is explicitly terminal, and the
root search results change (the empty word is now returned). -/
theorem c5_counterexample :
    (buildTrie [['a']]).terminal = false ∧
    (addWord (buildTrie [['a']]) []).terminal = true ∧
    (addWord (buildTrie [['a']]) []).search fixturePuzzle none ≠
      (buildTrie [['a']]).search fixturePuzzle none := by decide

/-- C6: with a configured bound `max_chain = k ≥ 1`, every returned chain
has at most `k` words, and with `k = 1` the output consists exactly of the
single-word chains whose word was found by the root search and alone
covers the puzzle. -/
theorem c6_maxchain_bound (ws : List Word) (p : Puzzle) (mc : Int) (gas : Nat)
    (out : List (List Word)) (hmc : 1 ≤ mc)
    (h : solverSearch (buildTrie ws) p mc gas = .ok out) :
    (∀ c ∈ out, (c.length : Int) ≤ mc) ∧
    (mc = 1 → ∀ c, c ∈ out ↔ ∃ w ed, c = [w] ∧
      (w, ed) ∈ (buildTrie ws).search p none ∧
      areAllLettersUsed p [w] = true) := by
  constructor
  · refine loop_maxchain gas ⟨([], none), [], [], []⟩ out ?_ (by simp) (by simp) h
    show ((([] : List Word).length : Int)) < mc
    simp only [List.length_nil, Nat.cast_zero]
    omega
  · rintro rfl
    intro c
    cases gas with
    | zero => simp [solverSearch, loop] at h
    | succ gas' =>
      have hsn : startNode (buildTrie ws) ([] : List Word) = some (buildTrie ws) := by
        simp [startNode]
      rcases hfold : ((buildTrie ws).search p none).foldl (procOne p 1 [])
          (([] : List Entry), ([] : List Entry), ([] : List Word))
        with ⟨comp, fr, seen⟩
      obtain ⟨h1, h2, h3, h4⟩ :=
        fold_k1 ((buildTrie ws).search p none) [] [] [] (by simp)
      rw [hfold] at h1 h2 h3 h4
      have hfr : fr = [] := h1
      subst hfr
      simp only [solverSearch, loop, iterStep, hsn, hfold, SResult.ok.injEq] at h
      subst h
      constructor
      · intro hc
        simp only [finalize] at hc
        obtain ⟨e, he, rfl⟩ := List.mem_map.mp (mem_pySort.mp hc)
        rcases h2 e he with hmm | ⟨w, ed, rfl, hm, hcov⟩
        · simp at hmm
        · exact ⟨w, ed, rfl, hm, hcov⟩
      · rintro ⟨w, ed, rfl, hm, hcov⟩
        obtain ⟨ed', hed'⟩ := h4 w ed hm hcov
        simp only [finalize]
        exact mem_pySort.mpr (List.mem_map.mpr ⟨([w], ed'), hed', rfl⟩)

set_option maxRecDepth 20000 in
/-- Witness for C6 at a concrete dictionary, puzzle, and bound 1. -/
theorem c6_maxchain_bound_witness :
    (1 : Int) ≤ 1 ∧
    solverSearch (buildTrie [['a','b','c']]) fixturePuzzle 1 1
        = .ok [[['a','b','c']]] ∧
    (∀ c ∈ [[['a','b','c']]], (c.length : Int) ≤ 1) ∧
    ((1 : Int) = 1 → ∀ c, c ∈ [[['a','b','c']]] ↔ ∃ w ed, c = [w] ∧
      (w, ed) ∈ (buildTrie [['a','b','c']]).search fixturePuzzle none ∧
      areAllLettersUsed fixturePuzzle [w] = true) :=
  ⟨le_refl 1, by decide,
    (c6_maxchain_bound [['a','b','c']] fixturePuzzle 1 1 _ (le_refl 1) (by decide)).1,
    (c6_maxchain_bound [['a','b','c']] fixturePuzzle 1 1 _ (le_refl 1) (by decide)).2⟩

/-- C7: the returned list of chains is sorted ascending by the pair
(number of words, total letter count): a chain with fewer words precedes
every chain with more words, and among equally long chains one with fewer
total letters never comes after one with more. -/
theorem c7_output_sorted (ws : List Word) (p : Puzzle) (mc : Int) (gas : Nat)
    (out : List (List Word)) (h : solverSearch (buildTrie ws) p mc gas = .ok out) :
    out.Pairwise fun x y =>
      x.length < y.length ∨
        (x.length = y.length ∧ (x.map List.length).sum ≤ (y.map List.length).sum) := by
  refine (loop_sorted gas ⟨([], none), [], [], []⟩ out h).imp ?_
  intro x y hxy
  simpa [chainKeyLe, Bool.or_eq_true, Bool.and_eq_true, decide_eq_true_eq] using hxy

set_option maxRecDepth 20000 in
/-- Witness for C7 at a concrete dictionary and puzzle. -/
theorem c7_output_sorted_witness :
    solverSearch (buildTrie [['a','b','c']]) fixturePuzzle (-1) 2
        = .ok [[['a','b','c']]] ∧
    List.Pairwise (fun x y : List Word =>
      x.length < y.length ∨
        (x.length = y.length ∧ (x.map List.length).sum ≤ (y.map List.length).sum))
      [[['a','b','c']]] :=
  ⟨by decide,
    c7_output_sorted [['a','b','c']] fixturePuzzle (-1) 2 _ (by decide)⟩

/-- C8: for every nonempty word inserted into the trie, descending from the
root along the word's letters succeeds at every step and reaches, after
exactly the word's letters, a node satisfying the word-boundary predicate. -/
theorem c8_inserted_word_reachable (ws : List Word) (W : Word)
    (hmem : W ∈ ws) (_hne : W ≠ []) :
    ∃ n, descend (buildTrie ws) W = some n ∧ n.word = true := by
  obtain ⟨n, hd, hterm⟩ := descend_buildTrie hmem
  refine ⟨n, hd, ?_⟩
  simp [LetterNode.word, hterm]

/-- Witness for C8 at a concrete dictionary. -/
theorem c8_inserted_word_reachable_witness :
    (['d','o','g'] : Word) ∈ [['d','o','g']] ∧ (['d','o','g'] : Word) ≠ [] ∧
    ∃ n, descend (buildTrie [['d','o','g']]) ['d','o','g'] = some n ∧
      n.word = true :=
  ⟨by decide, by decide,
    c8_inserted_word_reachable [['d','o','g']] ['d','o','g'] (by decide) (by decide)⟩

/-- C9: trie insertion is idempotent — inserting the same word twice yields
a trie equal (structure, word-boundary flags, and hence all subsequent
search results) to the trie after inserting it once. -/
theorem c9_insert_idempotent (t : LetterNode) (w : Word) :
    addWord (addWord t w) w = addWord t w :=
  addWord_idem w t

/-- C10 (amended): `LetterNode.search` is a total function returning a list
(`none` is impossible), so the `results is None` branch of the engine is
dead; but one engine iteration errors exactly when there is no start node —
the chain is nonempty and the trie root has no child for its last word's
last letter (or that word is empty) — so the loop can also end in that
error, not only through the empty-frontier checks. -/
theorem c10_step_error_characterization (root : LetterNode) (p : Puzzle)
    (mc : Int) (st : SState) :
    iterStep root p mc st = none ↔ startNode root st.current.1 = none := by
  cases hsn : startNode root st.current.1 with
  | none => simp [iterStep, hsn]
  | some node =>
    simp only [iterStep, hsn]
    rcases hfold : (node.search p st.current.2).foldl
        (procOne p mc st.current.1) (st.complete, st.frontier, st.seen)
      with ⟨comp, fr, seen⟩
    cases fr <;> simp

/-- Counterexample to C10 as stated: the loop does not always terminate
through the empty-frontier checks — with dictionary {"cd"} and a puzzle
where "cd" is playable but no word starts with d, the engine errors. -/
theorem c10_counterexample :
    solverSearch (buildTrie [['c','d']]) fixturePuzzleC (-1) 2 = .err := by decide

end LetterBoxed
